import Mathlib

/-!
Verification of the deja-dup-auto-ignore traversal engine.

The development shallowly embeds the three Rust source files:

* `src/stack_vec.rs` — a scope-guarded growable stack (`StackVec`): entries
  pushed inside a scope are popped from the tail of the shared vector when the
  scope ends, on every exit path.  Here the shared vector is threaded through
  the recursion explicitly and the `Drop` action is the `popTail` applied on
  every exit of `traverse`.
* `src/traverse.rs` — the recursive directory walk (`traverse`,
  `maybe_build_gitignore`, `find_directory_to_ignore`).
* `src/main.rs` — the per-root loop (`runRoots`).

Filesystem paths are sequences of components (`Path := List String`); the
filesystem itself is a static tree (`FSTree`).  The gitignore matcher comes
from the external `ignore` crate; it is modelled from the spec's description
of the dialect (one glob pattern per line, `#` comments, trailing `/` for
directory-only rules, leading `!` for negation, last matching line of a file
wins).  The recursion is given explicit fuel so that every function is
structurally recursive and computable by the kernel; any fuel at least the
tree depth makes the walk complete, and fuel exhaustion behaves like an
empty directory, so the properties proved for every fuel cover the real,
finite-filesystem program.  Ghost fields record the callback
invocations (`calls`), the arguments of every recursive call (`invs`) and the
directories whose ignore-rule file was read (`builds`); they affect no
control flow.
-/

set_option synthInstance.maxHeartbeats 400000

namespace DD

/-- A filesystem path, as its list of components relative to the filesystem
root.  The Rust code works with absolute canonical paths; `a.starts_with(b)`
on `std::path::Path` is component-wise prefix, which is `b.isPrefixOf a`
here. -/
abbrev Path := List String

/-- Mirrors Rust `dir.starts_with(ep)`: component-wise, reflexive. -/
def pathStartsWith (a b : Path) : Bool := b.isPrefixOf a

/-- A static filesystem: a regular file (with its lines, as read by the
gitignore builder) or a directory with an ordered entry list, the order being
the enumeration order that `fs::read_dir` yields. -/
inductive FSTree where
  | file (lines : List String)
  | dir (entries : List (String × FSTree))

/-- First entry with the given name, mirroring a filesystem name lookup. -/
def lookupEntry : List (String × FSTree) → String → Option FSTree
  | [], _ => none
  | (n, t) :: rest, name => if n == name then some t else lookupEntry rest name

/-- Child of a directory node by name (`dir.join(name)` followed by a
filesystem access). -/
def FSTree.findEntry : FSTree → String → Option FSTree
  | .file _, _ => none
  | .dir es, name => lookupEntry es name

/-- Mirrors `entry.file_type().is_dir()`. -/
def FSTree.isDir : FSTree → Bool
  | .file _ => false
  | .dir _ => true

/-- Mirrors `dir.join(".deja-dup-ignore").exists() ||
dir.join("CACHEDIR.TAG").exists()` from `traverse` in `src/traverse.rs`:
either marker entry exists directly in the directory (a directory of that
name also makes `exists()` true). -/
def FSTree.hasMarker (t : FSTree) : Bool :=
  (t.findEntry ".deja-dup-ignore").isSome || (t.findEntry "CACHEDIR.TAG").isSome

/-- Walk a component path down the tree (resolution of an absolute path). -/
def resolvePath : FSTree → Path → Option FSTree
  | t, [] => some t
  | t, name :: rest =>
    match t.findEntry name with
    | some c => resolvePath c rest
    | none => none

/-- Tokens of a single glob segment.  Modelled from the spec: the external
gitignore dialect supports `*` and `?` wildcards and literal characters; an
unsupported glob construct (a character class bracket) makes the matcher
construction fail, which is the spec's "an ignore-rule file exists but cannot
be parsed/built" case. -/
inductive GlobToken where
  | lit (c : Char)
  | star
  | qmark
deriving DecidableEq

/-- Parse one glob segment; `none` is a glob-compilation failure. -/
def parseSegChars : List Char → Option (List GlobToken)
  | [] => some []
  | '*' :: rest => (parseSegChars rest).map (fun ts => GlobToken.star :: ts)
  | '?' :: rest => (parseSegChars rest).map (fun ts => GlobToken.qmark :: ts)
  | '[' :: _ => none
  | c :: rest => (parseSegChars rest).map (fun ts => GlobToken.lit c :: ts)

/-- Fueled glob matcher; every step shrinks `tokens length + text length`, so
the wrapper's fuel makes it total on its intended domain. -/
def globMatchF : Nat → List GlobToken → List Char → Bool
  | 0, _, _ => false
  | _ + 1, [], s => s.isEmpty
  | f + 1, .lit c :: ts, s =>
    match s with
    | [] => false
    | d :: ds => c == d && globMatchF f ts ds
  | f + 1, .qmark :: ts, s =>
    match s with
    | [] => false
    | _ :: ds => globMatchF f ts ds
  | f + 1, .star :: ts, s =>
    match s with
    | [] => globMatchF f ts []
    | d :: ds => globMatchF f ts (d :: ds) || globMatchF f (.star :: ts) ds

/-- Glob matching of one segment against one path component. -/
def globMatch (ts : List GlobToken) (s : List Char) : Bool :=
  globMatchF (ts.length + s.length + 1) ts s

/-- One parsed line of an ignore-rule file.  Modelled from the spec: leading
`!` negates, trailing `/` restricts to directories, a pattern containing a
`/` (or starting with one) is anchored to the defining directory, otherwise
it matches against the base name at any depth below it. -/
structure IgnoreRule where
  negated : Bool
  dirOnly : Bool
  anchored : Bool
  segs : List (List GlobToken)
deriving DecidableEq

/-- Split a pattern on `/` into segments. -/
def splitSlash : List Char → List (List Char)
  | [] => [[]]
  | '/' :: rest => [] :: splitSlash rest
  | c :: rest =>
    match splitSlash rest with
    | [] => [[c]]
    | s :: ss => (c :: s) :: ss

/-- Parse one non-comment non-empty line into a rule. -/
def parseRuleChars (cs : List Char) : Option IgnoreRule :=
  let p1 := match cs with
    | '!' :: rest => (true, rest)
    | _ => (false, cs)
  let p2 := if p1.2.getLast? == some '/' then (true, p1.2.dropLast) else (false, p1.2)
  let p3 := match p2.2 with
    | '/' :: rest => (true, rest)
    | _ => (false, p2.2)
  let segStrs := splitSlash p3.2
  match segStrs.mapM parseSegChars with
  | none => none
  | some segs =>
    some { negated := p1.1, dirOnly := p2.1,
           anchored := p3.1 || decide (1 < segStrs.length), segs := segs }

/-- Parse a whole ignore-rule file: empty lines and `#` comments are skipped,
any bad glob fails the whole build. -/
def parseLines : List (List Char) → Option (List IgnoreRule)
  | [] => some []
  | l :: rest =>
    if l.isEmpty || l.head? == some '#' then parseLines rest
    else
      match parseRuleChars l, parseLines rest with
      | some r, some rs => some (r :: rs)
      | _, _ => none

/-- A built matcher: the directory it was built for and its parsed rules. -/
structure Gitignore where
  root : Path
  rules : List IgnoreRule
deriving DecidableEq

/-- Match result of one matcher, as in the external crate. -/
inductive GiMatch where
  | notMatched
  | ignore
  | whitelist
deriving DecidableEq

/-- Mirrors `Match::is_ignore()`. -/
def GiMatch.isIgnore : GiMatch → Bool
  | .ignore => true
  | _ => false

/-- Exact component-wise match of anchored segments. -/
def segsMatch : List (List GlobToken) → List (List Char) → Bool
  | [], [] => true
  | p :: ps, c :: cs => globMatch p c && segsMatch ps cs
  | _, _ => false

/-- Does a rule match a path given relative to the matcher's root? -/
def IgnoreRule.matchesRel (r : IgnoreRule) (rel : List (List Char)) (isDir : Bool) : Bool :=
  (!r.dirOnly || isDir) &&
    (if r.anchored then segsMatch r.segs rel
     else
       match rel.getLast? with
       | some base =>
         match r.segs with
         | [seg] => globMatch seg base
         | _ => false
       | none => false)

/-- Last matching rule of a file wins, as in the external crate. -/
def lastMatch (rules : List IgnoreRule) (rel : List (List Char)) (isDir : Bool) :
    Option IgnoreRule :=
  match rules with
  | [] => none
  | r :: rest =>
    match lastMatch rest rel isDir with
    | some w => some w
    | none => if r.matchesRel rel isDir then some r else none

/-- Mirrors `Gitignore::matched(path, is_dir)`: a path outside the matcher's
root never matches; otherwise the last matching line of the file decides, a
negated line giving `whitelist`. -/
def Gitignore.matched (gi : Gitignore) (path : Path) (isDir : Bool) : GiMatch :=
  if gi.root.isPrefixOf path then
    let rel := (path.drop gi.root.length).map String.toList
    match lastMatch gi.rules rel isDir with
    | some r => if r.negated then .whitelist else .ignore
    | none => .notMatched
  else .notMatched

/-- Mirrors `maybe_build_gitignore` from `src/traverse.rs`: if no
`.gitignore` entry exists the result is `none`; if it exists but is a
directory, `builder.add` fails and its error is discarded by the code, so an
empty matcher is built; if it is a file, its lines are parsed and a parse
failure is the propagated build error. -/
def maybe_build_gitignore (dir : Path) (t : FSTree) : Except Unit (Option Gitignore) :=
  match t.findEntry ".gitignore" with
  | none => .ok none
  | some (.dir _) => .ok (some { root := dir, rules := [] })
  | some (.file lines) =>
    match parseLines (lines.map String.toList) with
    | some rules => .ok (some { root := dir, rules := rules })
    | none => .error ()

/-- Mirrors the exclusion loop of `traverse` (`src/traverse.rs` lines 26-34):
the call returns early when `dir == ep || dir.starts_with(ep)` for some
excluded path `ep`. -/
def pruneHit (dir : Path) (excl : List Path) : Bool :=
  excl.any (fun e => dir == e || pathStartsWith dir e)

/-- Mirrors the `next_exclude_paths` computation of the same loop: the
freshly built list keeps exactly the excluded paths satisfying
`ep.starts_with(dir)`. -/
def nextExcludePaths (dir : Path) (excl : List Path) : List Path :=
  excl.filter (fun e => pathStartsWith e dir)

/-- Mirrors the ignore check of `traverse` (lines 44-51): some matcher on the
stack, scanned from the bottom (outermost) up, returns an ignore match for
the current directory with `is_dir = true`. -/
def flaggedIgnored (stack : List Gitignore) (dir : Path) : Bool :=
  stack.any (fun gi => (gi.matched dir true).isIgnore)

/-- Mirrors the `Drop` impl of `StackVec` (`src/stack_vec.rs` lines 21-28):
pop the shared vector `pushed` times from its tail. -/
def popTail (l : List Gitignore) : Nat → List Gitignore
  | 0 => l
  | n + 1 => popTail l.dropLast n

/-- Mirrors `StackVec::push`: append to the shared vector. -/
def pushOpt (stack : List Gitignore) : Option Gitignore → List Gitignore
  | some gi => stack ++ [gi]
  | none => stack

/-- Number of entries this scope pushed (`StackVec.pushed` at scope exit). -/
def pushCount : Option Gitignore → Nat
  | some _ => 1
  | none => 0

/-- Arguments of one recursive invocation of `traverse` (ghost data). -/
structure Invocation where
  path : Path
  excl : List Path
  stack : List Gitignore
deriving DecidableEq

/-- Observable outcome of one `traverse` call: callback invocations in
order (`calls`), the shared matcher stack as left for the caller (`stack`),
whether an error propagated (`err`), and the ghost logs `invs` (arguments of
every recursive call, this one included, in call order) and `builds` (the
directories whose ignore-rule file was looked at by
`maybe_build_gitignore`). -/
structure TravResult where
  calls : List Path
  stack : List Gitignore
  err : Bool
  invs : List Invocation
  builds : List Path
deriving DecidableEq

/-- Result shape of the three early returns that visit nothing. -/
def skipResult (dir : Path) (excl : List Path) (stack : List Gitignore) : TravResult :=
  { calls := [], stack := stack, err := false, invs := [⟨dir, excl, stack⟩], builds := [] }

/-- Mirrors the entry loop of `traverse` (`src/traverse.rs` lines 70-96):
non-directories and entries named `.git` are skipped; each remaining child is
traversed with the narrowed exclusion list, and an error from a child
propagates immediately (`?`), abandoning the rest of the loop. `rec` is the
recursive call with the remaining fuel. -/
def traverseEntries (rec : FSTree → Path → List Path → List Gitignore → TravResult)
    (es : List (String × FSTree)) (dir : Path) (nextExcl : List Path)
    (stack : List Gitignore) : TravResult :=
  match es with
  | [] => { calls := [], stack := stack, err := false, invs := [], builds := [] }
  | (name, child) :: rest =>
    if !child.isDir then traverseEntries rec rest dir nextExcl stack
    else if name == ".git" then traverseEntries rec rest dir nextExcl stack
    else
      let r := rec child (dir ++ [name]) nextExcl stack
      if r.err then r
      else
        let r2 := traverseEntries rec rest dir nextExcl r.stack
        { calls := r.calls ++ r2.calls, stack := r2.stack, err := r2.err,
          invs := r.invs ++ r2.invs, builds := r.builds ++ r2.builds }

/-- Mirrors `traverse` from `src/traverse.rs`: exclusion check, marker
short-circuit, ignore check with immediate callback, matcher construction
(wrapped in a `StackVec` scope whose drop is the final `popTail`), directory
enumeration (which fails harmlessly on a non-directory), recursion.  The
fuel only bounds the depth; the wrappers pass enough for the whole tree. -/
def traverse : Nat → FSTree → Path → List Path → List Gitignore → TravResult
  | 0, _, dir, excl, stack => skipResult dir excl stack
  | fuel + 1, t, dir, excl, stack =>
    if pruneHit dir excl then skipResult dir excl stack
    else if t.hasMarker then skipResult dir excl stack
    else if flaggedIgnored stack dir then
      { calls := [dir], stack := stack, err := false,
        invs := [⟨dir, excl, stack⟩], builds := [] }
    else
      match maybe_build_gitignore dir t with
      | .error _ =>
        { calls := [], stack := stack, err := true,
          invs := [⟨dir, excl, stack⟩], builds := [dir] }
      | .ok og =>
        let stack1 := pushOpt stack og
        match t with
        | .file _ =>
          { calls := [], stack := popTail stack1 (pushCount og), err := false,
            invs := [⟨dir, excl, stack⟩], builds := [dir] }
        | .dir es =>
          let r := traverseEntries (traverse fuel) es dir (nextExcludePaths dir excl) stack1
          { calls := r.calls, stack := popTail r.stack (pushCount og), err := r.err,
            invs := ⟨dir, excl, stack⟩ :: r.invs, builds := dir :: r.builds }

/-- Mirrors `find_directory_to_ignore` from `src/traverse.rs`: run the walk
from a root with a fresh empty matcher stack.  The extra `fuel` argument
bounds the recursion depth, which the Rust program leaves to the finiteness
of the filesystem. -/
def find_directory_to_ignore (fuel : Nat) (t : FSTree) (root : Path) (excl : List Path) :
    TravResult :=
  traverse fuel t root excl []

/-- Outcome of the per-root loop of `main`. -/
structure RootsResult where
  calls : List Path
  err : Bool
deriving DecidableEq

/-- Mirrors the loop over include paths in `main` (`src/main.rs` lines
54-62): each root is canonicalized (here: resolved in the tree, failing when
it does not exist) and traversed; both failures propagate out of the loop
with `?`. -/
def runRoots (fuel : Nat) (fs : FSTree) (roots : List Path) (excl : List Path) : RootsResult :=
  match roots with
  | [] => { calls := [], err := false }
  | r :: rest =>
    match resolvePath fs r with
    | none => { calls := [], err := true }
    | some node =>
      let tr := find_directory_to_ignore fuel node r excl
      if tr.err then { calls := tr.calls, err := true }
      else
        let rr := runRoots fuel fs rest excl
        { calls := tr.calls ++ rr.calls, err := rr.err }

/-- Entry names of a directory listing are pairwise distinct. -/
def namesNodup : List String → Bool
  | [] => true
  | n :: rest => !(rest.contains n) && namesNodup rest

/-- Fueled well-formedness: every directory of the tree, down to the given
depth, has pairwise distinct entry names (true of a real filesystem). -/
def wfF : Nat → FSTree → Bool
  | 0, _ => false
  | _ + 1, .file _ => true
  | f + 1, .dir es => namesNodup (es.map Prod.fst) && es.all (fun p => wfF f p.2)

/-! ### Stack restoration -/

theorem popTail_pushOpt (s : List Gitignore) (og : Option Gitignore) :
    popTail (pushOpt s og) (pushCount og) = s := by
  cases og with
  | none => rfl
  | some gi => simp [pushOpt, pushCount, popTail]

theorem entries_stack_eq (rec : FSTree → Path → List Path → List Gitignore → TravResult)
    (d : Path) (ne : List Path)
    (hrec : ∀ c p s, (rec c p ne s).stack = s) :
    ∀ (es : List (String × FSTree)) (st : List Gitignore),
      (traverseEntries rec es d ne st).stack = st := by
  intro es
  induction es with
  | nil => intro st; rfl
  | cons e rest ih =>
    intro st
    obtain ⟨name, child⟩ := e
    cases hdir : child.isDir with
    | false => simp [traverseEntries, hdir, ih]
    | true =>
      cases hgit : (name == ".git") with
      | true => simp [traverseEntries, hdir, hgit, ih]
      | false =>
        have h1 := hrec child (d ++ [name]) st
        cases herr : (rec child (d ++ [name]) ne st).err with
        | true => simp [traverseEntries, hdir, hgit, herr, h1]
        | false => simp [traverseEntries, hdir, hgit, herr, h1, ih]

theorem traverse_stack_eq (f : Nat) :
    ∀ (t : FSTree) (d : Path) (e : List Path) (s : List Gitignore),
      (traverse f t d e s).stack = s := by
  induction f with
  | zero => intro t d e s; rfl
  | succ f ih =>
    intro t d e s
    simp only [traverse]
    by_cases hp : pruneHit d e = true
    · simp [hp, skipResult]
    · simp only [hp]
      by_cases hm : t.hasMarker = true
      · simp [hm, skipResult]
      · simp only [hm]
        by_cases hf : flaggedIgnored s d = true
        · simp [hf]
        · simp only [hf]
          cases hb : maybe_build_gitignore d t with
          | error u => simp
          | ok og =>
            cases t with
            | file lines => simp [popTail_pushOpt]
            | dir es =>
              simp only []
              rw [entries_stack_eq (traverse f) d (nextExcludePaths d e)
                    (fun c p s => ih c p (nextExcludePaths d e) s) es (pushOpt s og)]
              exact popTail_pushOpt s og

/-! ### Branch equations for `traverse` -/

theorem traverse_pruned (f : Nat) (t : FSTree) (d : Path) (e : List Path) (s : List Gitignore)
    (hp : pruneHit d e = true) :
    traverse (f + 1) t d e s = skipResult d e s := by
  simp [traverse, hp]

theorem traverse_marker (f : Nat) (t : FSTree) (d : Path) (e : List Path) (s : List Gitignore)
    (hp : pruneHit d e = false) (hm : t.hasMarker = true) :
    traverse (f + 1) t d e s = skipResult d e s := by
  simp [traverse, hp, hm]

theorem traverse_flagged (f : Nat) (t : FSTree) (d : Path) (e : List Path) (s : List Gitignore)
    (hp : pruneHit d e = false) (hm : t.hasMarker = false) (hf : flaggedIgnored s d = true) :
    traverse (f + 1) t d e s =
      { calls := [d], stack := s, err := false, invs := [⟨d, e, s⟩], builds := [] } := by
  simp [traverse, hp, hm, hf]

theorem traverse_builderr (f : Nat) (t : FSTree) (d : Path) (e : List Path) (s : List Gitignore)
    (u : Unit) (hp : pruneHit d e = false) (hm : t.hasMarker = false)
    (hf : flaggedIgnored s d = false) (hb : maybe_build_gitignore d t = .error u) :
    traverse (f + 1) t d e s =
      { calls := [], stack := s, err := true, invs := [⟨d, e, s⟩], builds := [d] } := by
  simp [traverse, hp, hm, hf, hb]

theorem traverse_file (f : Nat) (lines : List String) (d : Path) (e : List Path)
    (s : List Gitignore) (og : Option Gitignore) (hp : pruneHit d e = false)
    (hm : FSTree.hasMarker (.file lines) = false) (hf : flaggedIgnored s d = false)
    (hb : maybe_build_gitignore d (.file lines) = .ok og) :
    traverse (f + 1) (.file lines) d e s =
      { calls := [], stack := popTail (pushOpt s og) (pushCount og), err := false,
        invs := [⟨d, e, s⟩], builds := [d] } := by
  simp [traverse, hp, hm, hf, hb]

theorem traverse_dir (f : Nat) (es : List (String × FSTree)) (d : Path) (e : List Path)
    (s : List Gitignore) (og : Option Gitignore) (hp : pruneHit d e = false)
    (hm : FSTree.hasMarker (.dir es) = false) (hf : flaggedIgnored s d = false)
    (hb : maybe_build_gitignore d (.dir es) = .ok og) :
    traverse (f + 1) (.dir es) d e s =
      { calls := (traverseEntries (traverse f) es d (nextExcludePaths d e) (pushOpt s og)).calls,
        stack := popTail
          (traverseEntries (traverse f) es d (nextExcludePaths d e) (pushOpt s og)).stack
          (pushCount og),
        err := (traverseEntries (traverse f) es d (nextExcludePaths d e) (pushOpt s og)).err,
        invs := ⟨d, e, s⟩ ::
          (traverseEntries (traverse f) es d (nextExcludePaths d e) (pushOpt s og)).invs,
        builds := d ::
          (traverseEntries (traverse f) es d (nextExcludePaths d e) (pushOpt s og)).builds } := by
  simp [traverse, hp, hm, hf, hb]

/-! ### Attribution of calls and invocations to entries -/

theorem entries_calls_mem (rec : FSTree → Path → List Path → List Gitignore → TravResult)
    (d : Path) (ne : List Path)
    (hstack : ∀ c p s, (rec c p ne s).stack = s) :
    ∀ (es : List (String × FSTree)) (st : List Gitignore) (q : Path),
      q ∈ (traverseEntries rec es d ne st).calls →
      ∃ n c, (n, c) ∈ es ∧ c.isDir = true ∧ (n == ".git") = false ∧
        q ∈ (rec c (d ++ [n]) ne st).calls := by
  intro es
  induction es with
  | nil => intro st q hq; simp [traverseEntries] at hq
  | cons hd rest ih =>
    intro st q hq
    obtain ⟨name, child⟩ := hd
    cases hdir : child.isDir with
    | false =>
      simp [traverseEntries, hdir] at hq
      obtain ⟨n, c, hmem, h1, h2, h3⟩ := ih st q hq
      exact ⟨n, c, List.mem_cons_of_mem _ hmem, h1, h2, h3⟩
    | true =>
      cases hgit : (name == ".git") with
      | true =>
        simp [traverseEntries, hdir, hgit] at hq
        obtain ⟨n, c, hmem, h1, h2, h3⟩ := ih st q hq
        exact ⟨n, c, List.mem_cons_of_mem _ hmem, h1, h2, h3⟩
      | false =>
        cases herr : (rec child (d ++ [name]) ne st).err with
        | true =>
          simp [traverseEntries, hdir, hgit, herr] at hq
          exact ⟨name, child, List.mem_cons_self _ _, hdir, hgit, hq⟩
        | false =>
          simp [traverseEntries, hdir, hgit, herr] at hq
          rcases hq with h | h
          · exact ⟨name, child, List.mem_cons_self _ _, hdir, hgit, h⟩
          · rw [hstack child (d ++ [name]) st] at h
            obtain ⟨n, c, hmem, h1, h2, h3⟩ := ih st q h
            exact ⟨n, c, List.mem_cons_of_mem _ hmem, h1, h2, h3⟩

theorem entries_invs_mem (rec : FSTree → Path → List Path → List Gitignore → TravResult)
    (d : Path) (ne : List Path)
    (hstack : ∀ c p s, (rec c p ne s).stack = s) :
    ∀ (es : List (String × FSTree)) (st : List Gitignore) (iv : Invocation),
      iv ∈ (traverseEntries rec es d ne st).invs →
      ∃ n c, (n, c) ∈ es ∧ c.isDir = true ∧ (n == ".git") = false ∧
        iv ∈ (rec c (d ++ [n]) ne st).invs := by
  intro es
  induction es with
  | nil => intro st iv hq; simp [traverseEntries] at hq
  | cons hd rest ih =>
    intro st iv hq
    obtain ⟨name, child⟩ := hd
    cases hdir : child.isDir with
    | false =>
      simp [traverseEntries, hdir] at hq
      obtain ⟨n, c, hmem, h1, h2, h3⟩ := ih st iv hq
      exact ⟨n, c, List.mem_cons_of_mem _ hmem, h1, h2, h3⟩
    | true =>
      cases hgit : (name == ".git") with
      | true =>
        simp [traverseEntries, hdir, hgit] at hq
        obtain ⟨n, c, hmem, h1, h2, h3⟩ := ih st iv hq
        exact ⟨n, c, List.mem_cons_of_mem _ hmem, h1, h2, h3⟩
      | false =>
        cases herr : (rec child (d ++ [name]) ne st).err with
        | true =>
          simp [traverseEntries, hdir, hgit, herr] at hq
          exact ⟨name, child, List.mem_cons_self _ _, hdir, hgit, hq⟩
        | false =>
          simp [traverseEntries, hdir, hgit, herr] at hq
          rcases hq with h | h
          · exact ⟨name, child, List.mem_cons_self _ _, hdir, hgit, h⟩
          · rw [hstack child (d ++ [name]) st] at h
            obtain ⟨n, c, hmem, h1, h2, h3⟩ := ih st iv h
            exact ⟨n, c, List.mem_cons_of_mem _ hmem, h1, h2, h3⟩

/-! ### Every reported or visited path lies below the call's directory -/

theorem traverse_calls_pfx (f : Nat) :
    ∀ (t : FSTree) (d : Path) (e : List Path) (s : List Gitignore) (q : Path),
      q ∈ (traverse f t d e s).calls → d <+: q := by
  induction f with
  | zero => intro t d e s q hq; simp [traverse, skipResult] at hq
  | succ f ih =>
    intro t d e s q hq
    cases hp : pruneHit d e with
    | true => rw [traverse_pruned f t d e s hp] at hq; simp [skipResult] at hq
    | false =>
      cases hm : t.hasMarker with
      | true => rw [traverse_marker f t d e s hp hm] at hq; simp [skipResult] at hq
      | false =>
        cases hf : flaggedIgnored s d with
        | true =>
          rw [traverse_flagged f t d e s hp hm hf] at hq
          simp at hq
          subst hq
          exact List.prefix_rfl
        | false =>
          cases hb : maybe_build_gitignore d t with
          | error u =>
            rw [traverse_builderr f t d e s u hp hm hf hb] at hq
            simp at hq
          | ok og =>
            cases t with
            | file lines =>
              rw [traverse_file f lines d e s og hp hm hf hb] at hq
              simp at hq
            | dir es =>
              rw [traverse_dir f es d e s og hp hm hf hb] at hq
              obtain ⟨n, c, hmem, h1, h2, h3⟩ :=
                entries_calls_mem (traverse f) d (nextExcludePaths d e)
                  (fun c p s2 => traverse_stack_eq f c p (nextExcludePaths d e) s2) es
                  (pushOpt s og) q hq
              exact (List.prefix_append d [n]).trans
                (ih c (d ++ [n]) (nextExcludePaths d e) (pushOpt s og) q h3)

theorem entries_calls_pfx (f : Nat) (d : Path) (ne : List Path)
    (es : List (String × FSTree)) (st : List Gitignore) (q : Path)
    (hq : q ∈ (traverseEntries (traverse f) es d ne st).calls) :
    ∃ n c, (n, c) ∈ es ∧ (d ++ [n]) <+: q := by
  obtain ⟨n, c, hmem, h1, h2, h3⟩ :=
    entries_calls_mem (traverse f) d ne (fun c p s2 => traverse_stack_eq f c p ne s2)
      es st q hq
  exact ⟨n, c, hmem, traverse_calls_pfx f c (d ++ [n]) ne st q h3⟩

theorem traverse_invs_pfx (f : Nat) :
    ∀ (t : FSTree) (d : Path) (e : List Path) (s : List Gitignore) (iv : Invocation),
      iv ∈ (traverse f t d e s).invs → d <+: iv.path := by
  induction f with
  | zero =>
    intro t d e s iv hq
    simp [traverse, skipResult] at hq
    subst hq
    exact List.prefix_rfl
  | succ f ih =>
    intro t d e s iv hq
    cases hp : pruneHit d e with
    | true =>
      rw [traverse_pruned f t d e s hp] at hq
      simp [skipResult] at hq
      subst hq
      exact List.prefix_rfl
    | false =>
      cases hm : t.hasMarker with
      | true =>
        rw [traverse_marker f t d e s hp hm] at hq
        simp [skipResult] at hq
        subst hq
        exact List.prefix_rfl
      | false =>
        cases hf : flaggedIgnored s d with
        | true =>
          rw [traverse_flagged f t d e s hp hm hf] at hq
          simp at hq
          subst hq
          exact List.prefix_rfl
        | false =>
          cases hb : maybe_build_gitignore d t with
          | error u =>
            rw [traverse_builderr f t d e s u hp hm hf hb] at hq
            simp at hq
            subst hq
            exact List.prefix_rfl
          | ok og =>
            cases t with
            | file lines =>
              rw [traverse_file f lines d e s og hp hm hf hb] at hq
              simp at hq
              subst hq
              exact List.prefix_rfl
            | dir es =>
              rw [traverse_dir f es d e s og hp hm hf hb] at hq
              simp only [List.mem_cons] at hq
              rcases hq with h | h
              · subst h; exact List.prefix_rfl
              · obtain ⟨n, c, hmem, h1, h2, h3⟩ :=
                  entries_invs_mem (traverse f) d (nextExcludePaths d e)
                    (fun c p s2 => traverse_stack_eq f c p (nextExcludePaths d e) s2) es
                    (pushOpt s og) iv h
                exact (List.prefix_append d [n]).trans
                  (ih c (d ++ [n]) (nextExcludePaths d e) (pushOpt s og) iv h3)

/-! ### Exclusion-list facts -/

theorem pruneHit_iff (d : Path) (e : List Path) :
    pruneHit d e = true ↔ ∃ x ∈ e, x <+: d := by
  simp only [pruneHit, pathStartsWith, List.any_eq_true, Bool.or_eq_true, beq_iff_eq,
    List.isPrefixOf_iff_prefix]
  constructor
  · rintro ⟨x, hx, h | h⟩
    · refine ⟨x, hx, ?_⟩
      rw [h]
    · exact ⟨x, hx, h⟩
  · rintro ⟨x, hx, h⟩
    exact ⟨x, hx, Or.inr h⟩

theorem nextExcludePaths_sub (d : Path) (e : List Path) :
    ∀ x ∈ nextExcludePaths d e, x ∈ e := by
  intro x hx
  exact (List.mem_filter.mp hx).1

theorem nextExcludePaths_desc (d : Path) (e : List Path) (hp : pruneHit d e = false)
    (x : Path) (hx : x ∈ nextExcludePaths d e) : d <+: x ∧ x ≠ d := by
  obtain ⟨hxe, hpfx⟩ := List.mem_filter.mp hx
  simp only [pathStartsWith, List.isPrefixOf_iff_prefix] at hpfx
  refine ⟨hpfx, ?_⟩
  intro hxd
  subst hxd
  have : pruneHit x e = true := (pruneHit_iff x e).mpr ⟨x, hxe, List.prefix_rfl⟩
  rw [this] at hp
  simp at hp

theorem traverse_invs_excl (f : Nat) :
    ∀ (t : FSTree) (d : Path) (e : List Path) (s : List Gitignore) (iv : Invocation),
      iv ∈ (traverse f t d e s).invs →
      (iv.path = d ∧ iv.excl = e) ∨
        (∀ x ∈ iv.excl, iv.path.dropLast <+: x ∧ x ≠ iv.path.dropLast) := by
  induction f with
  | zero =>
    intro t d e s iv hq
    simp [traverse, skipResult] at hq
    subst hq
    exact Or.inl ⟨rfl, rfl⟩
  | succ f ih =>
    intro t d e s iv hq
    cases hp : pruneHit d e with
    | true =>
      rw [traverse_pruned f t d e s hp] at hq
      simp [skipResult] at hq
      subst hq
      exact Or.inl ⟨rfl, rfl⟩
    | false =>
      cases hm : t.hasMarker with
      | true =>
        rw [traverse_marker f t d e s hp hm] at hq
        simp [skipResult] at hq
        subst hq
        exact Or.inl ⟨rfl, rfl⟩
      | false =>
        cases hf : flaggedIgnored s d with
        | true =>
          rw [traverse_flagged f t d e s hp hm hf] at hq
          simp at hq
          subst hq
          exact Or.inl ⟨rfl, rfl⟩
        | false =>
          cases hb : maybe_build_gitignore d t with
          | error u =>
            rw [traverse_builderr f t d e s u hp hm hf hb] at hq
            simp at hq
            subst hq
            exact Or.inl ⟨rfl, rfl⟩
          | ok og =>
            cases t with
            | file lines =>
              rw [traverse_file f lines d e s og hp hm hf hb] at hq
              simp at hq
              subst hq
              exact Or.inl ⟨rfl, rfl⟩
            | dir es =>
              rw [traverse_dir f es d e s og hp hm hf hb] at hq
              simp only [List.mem_cons] at hq
              rcases hq with h | h
              · subst h; exact Or.inl ⟨rfl, rfl⟩
              · obtain ⟨n, c, hmem, h1, h2, h3⟩ :=
                  entries_invs_mem (traverse f) d (nextExcludePaths d e)
                    (fun c p s2 => traverse_stack_eq f c p (nextExcludePaths d e) s2) es
                    (pushOpt s og) iv h
                rcases ih c (d ++ [n]) (nextExcludePaths d e) (pushOpt s og) iv h3 with
                  ⟨hpath, hexcl⟩ | hrest
                · right
                  intro x hx
                  rw [hexcl] at hx
                  rw [hpath, List.dropLast_concat]
                  exact nextExcludePaths_desc d e hp x hx
                · exact Or.inr hrest

/-! ### Well-formed trees: distinct entry names -/

theorem namesNodup_cons {n : String} {rest : List String}
    (h : namesNodup (n :: rest) = true) : n ∉ rest ∧ namesNodup rest = true := by
  simp [namesNodup] at h
  exact h

theorem lookupEntry_of_nodup :
    ∀ (es : List (String × FSTree)) (n : String) (c : FSTree),
      namesNodup (es.map Prod.fst) = true → (n, c) ∈ es → lookupEntry es n = some c := by
  intro es
  induction es with
  | nil => intro n c _ hmem; cases hmem
  | cons hd rest ih =>
    intro n c hnd hmem
    obtain ⟨m, t⟩ := hd
    obtain ⟨hm1, hm2⟩ := namesNodup_cons (by simpa using hnd)
    rcases List.mem_cons.mp hmem with heq | hmem2
    · obtain ⟨hn, hc⟩ := Prod.mk.injEq .. ▸ heq
      subst hn; subst hc
      simp [lookupEntry]
    · have hnm : (m == n) = false := by
        have : n ∈ rest.map Prod.fst := List.mem_map_of_mem Prod.fst hmem2
        by_cases hmn : m = n
        · subst hmn; exact absurd this hm1
        · simp [hmn]
      simp only [lookupEntry, hnm, if_false]
      exact ih n c hm2 hmem2

theorem wfF_dir_names {f : Nat} {es : List (String × FSTree)}
    (hw : wfF (f + 1) (.dir es) = true) : namesNodup (es.map Prod.fst) = true := by
  simp [wfF] at hw
  exact hw.1

theorem wfF_dir_child {f : Nat} {es : List (String × FSTree)} {n : String} {c : FSTree}
    (hw : wfF (f + 1) (.dir es) = true) (hmem : (n, c) ∈ es) : wfF f c = true := by
  simp [wfF, List.all_eq_true] at hw
  exact hw.2 n c hmem

/-! ### Reported directories carry no marker -/

theorem traverse_calls_resolve (f : Nat) :
    ∀ (t : FSTree) (d : Path) (e : List Path) (s : List Gitignore) (q : Path),
      wfF f t = true → q ∈ (traverse f t d e s).calls →
      ∃ sub, resolvePath t (q.drop d.length) = some sub ∧ sub.hasMarker = false := by
  induction f with
  | zero => intro t d e s q _ hq; simp [traverse, skipResult] at hq
  | succ f ih =>
    intro t d e s q hw hq
    cases hp : pruneHit d e with
    | true => rw [traverse_pruned f t d e s hp] at hq; simp [skipResult] at hq
    | false =>
      cases hm : t.hasMarker with
      | true => rw [traverse_marker f t d e s hp hm] at hq; simp [skipResult] at hq
      | false =>
        cases hf : flaggedIgnored s d with
        | true =>
          rw [traverse_flagged f t d e s hp hm hf] at hq
          simp at hq
          subst hq
          exact ⟨t, by simp [resolvePath], hm⟩
        | false =>
          cases hb : maybe_build_gitignore d t with
          | error u =>
            rw [traverse_builderr f t d e s u hp hm hf hb] at hq
            simp at hq
          | ok og =>
            cases t with
            | file lines =>
              rw [traverse_file f lines d e s og hp hm hf hb] at hq
              simp at hq
            | dir es =>
              rw [traverse_dir f es d e s og hp hm hf hb] at hq
              obtain ⟨n, c, hmem, h1, h2, h3⟩ :=
                entries_calls_mem (traverse f) d (nextExcludePaths d e)
                  (fun c p s2 => traverse_stack_eq f c p (nextExcludePaths d e) s2) es
                  (pushOpt s og) q hq
              have hwc : wfF f c = true := wfF_dir_child hw hmem
              obtain ⟨sub, hres, hsub⟩ :=
                ih c (d ++ [n]) (nextExcludePaths d e) (pushOpt s og) q hwc h3
              obtain ⟨r, hr⟩ := traverse_calls_pfx f c (d ++ [n]) (nextExcludePaths d e)
                (pushOpt s og) q h3
              refine ⟨sub, ?_, hsub⟩
              have hq1 : q.drop d.length = n :: r := by
                rw [← hr, List.append_assoc]
                simp [List.drop_left d ([n] ++ r)]
              have hq2 : q.drop (d ++ [n]).length = r := by
                rw [← hr]
                exact List.drop_left (d ++ [n]) r
              rw [hq1]
              simp only [resolvePath, FSTree.findEntry]
              rw [lookupEntry_of_nodup es n c (wfF_dir_names hw) hmem]
              rw [hq2] at hres
              exact hres

/-! ### At most one report per directory within a root, and no nesting -/

theorem head_determined {d : Path} {n m : String} {q : Path}
    (h1 : (d ++ [n]) <+: q) (h2 : (d ++ [m]) <+: q) : n = m := by
  have hle : (d ++ [n]).length ≤ (d ++ [m]).length := by simp
  have h3 : (d ++ [n]) <+: (d ++ [m]) := List.prefix_of_prefix_length_le h1 h2 hle
  have h4 : (d ++ [n]) = (d ++ [m]) := h3.eq_of_length (by simp)
  have h5 := List.append_cancel_left h4
  simpa using h5

theorem entries_calls_nodup (f : Nat) (d : Path) (ne : List Path) :
    ∀ (es : List (String × FSTree)) (st : List Gitignore),
      namesNodup (es.map Prod.fst) = true →
      (∀ n c st2, (n, c) ∈ es → ((traverse f c (d ++ [n]) ne st2).calls).Nodup) →
      ((traverseEntries (traverse f) es d ne st).calls).Nodup := by
  intro es
  induction es with
  | nil => intro st _ _; simp [traverseEntries]
  | cons hd rest ih =>
    intro st hnd hkids
    obtain ⟨name, child⟩ := hd
    obtain ⟨hname, hndrest⟩ := namesNodup_cons (by simpa using hnd)
    have hkrest : ∀ n c st2, (n, c) ∈ rest →
        ((traverse f c (d ++ [n]) ne st2).calls).Nodup :=
      fun n c st2 hm => hkids n c st2 (List.mem_cons_of_mem _ hm)
    cases hdir : child.isDir with
    | false =>
      simp only [traverseEntries, hdir, Bool.not_false, if_true]
      exact ih st hndrest hkrest
    | true =>
      cases hgit : (name == ".git") with
      | true =>
        simp only [traverseEntries, hdir, hgit, Bool.not_true, if_false, if_true]
        exact ih st hndrest hkrest
      | false =>
        cases herr : (traverse f child (d ++ [name]) ne st).err with
        | true =>
          have : traverseEntries (traverse f) ((name, child) :: rest) d ne st =
              traverse f child (d ++ [name]) ne st := by
            simp [traverseEntries, hdir, hgit, herr]
          rw [this]
          exact hkids name child st (List.mem_cons_self _ _)
        | false =>
          have hcalls : (traverseEntries (traverse f) ((name, child) :: rest) d ne st).calls =
              (traverse f child (d ++ [name]) ne st).calls ++
                (traverseEntries (traverse f) rest d ne
                  (traverse f child (d ++ [name]) ne st).stack).calls := by
            simp [traverseEntries, hdir, hgit, herr]
          rw [hcalls, List.nodup_append]
          refine ⟨hkids name child st (List.mem_cons_self _ _), ih _ hndrest hkrest, ?_⟩
          intro q hq hq2
          have hpfx1 : (d ++ [name]) <+: q :=
            traverse_calls_pfx f child (d ++ [name]) ne st q hq
          obtain ⟨m, c2, hm2, hpfx2⟩ := entries_calls_pfx f d ne rest _ q hq2
          have heqnm : name = m := head_determined hpfx1 hpfx2
          subst heqnm
          exact hname (List.mem_map_of_mem Prod.fst hm2)

theorem traverse_calls_nodup (f : Nat) :
    ∀ (t : FSTree) (d : Path) (e : List Path) (s : List Gitignore),
      wfF f t = true → ((traverse f t d e s).calls).Nodup := by
  induction f with
  | zero => intro t d e s _; simp [traverse, skipResult]
  | succ f ih =>
    intro t d e s hw
    cases hp : pruneHit d e with
    | true => rw [traverse_pruned f t d e s hp]; simp [skipResult]
    | false =>
      cases hm : t.hasMarker with
      | true => rw [traverse_marker f t d e s hp hm]; simp [skipResult]
      | false =>
        cases hf : flaggedIgnored s d with
        | true => rw [traverse_flagged f t d e s hp hm hf]; simp
        | false =>
          cases hb : maybe_build_gitignore d t with
          | error u => rw [traverse_builderr f t d e s u hp hm hf hb]; simp
          | ok og =>
            cases t with
            | file lines => rw [traverse_file f lines d e s og hp hm hf hb]; simp
            | dir es =>
              rw [traverse_dir f es d e s og hp hm hf hb]
              exact entries_calls_nodup f d (nextExcludePaths d e) es (pushOpt s og)
                (wfF_dir_names hw)
                (fun n c st2 hmem => ih c (d ++ [n]) (nextExcludePaths d e) st2
                  (wfF_dir_child hw hmem))

theorem entries_calls_antichain (f : Nat) (d : Path) (ne : List Path) :
    ∀ (es : List (String × FSTree)) (st : List Gitignore),
      namesNodup (es.map Prod.fst) = true →
      (∀ n c st2 q q2, (n, c) ∈ es →
        q ∈ (traverse f c (d ++ [n]) ne st2).calls →
        q2 ∈ (traverse f c (d ++ [n]) ne st2).calls → q <+: q2 → q = q2) →
      ∀ q q2, q ∈ (traverseEntries (traverse f) es d ne st).calls →
        q2 ∈ (traverseEntries (traverse f) es d ne st).calls → q <+: q2 → q = q2 := by
  intro es
  induction es with
  | nil => intro st _ _ q q2 hq _ _; simp [traverseEntries] at hq
  | cons hd rest ih =>
    intro st hnd hkids q q2 hq hq2 hpq
    obtain ⟨name, child⟩ := hd
    obtain ⟨hname, hndrest⟩ := namesNodup_cons (by simpa using hnd)
    have hkrest : ∀ n c st2 q q2, (n, c) ∈ rest →
        q ∈ (traverse f c (d ++ [n]) ne st2).calls →
        q2 ∈ (traverse f c (d ++ [n]) ne st2).calls → q <+: q2 → q = q2 :=
      fun n c st2 q q2 hm => hkids n c st2 q q2 (List.mem_cons_of_mem _ hm)
    cases hdir : child.isDir with
    | false =>
      simp only [traverseEntries, hdir, Bool.not_false, if_true] at hq hq2
      exact ih st hndrest hkrest q q2 hq hq2 hpq
    | true =>
      cases hgit : (name == ".git") with
      | true =>
        simp only [traverseEntries, hdir, hgit, Bool.not_true, if_false, if_true] at hq hq2
        exact ih st hndrest hkrest q q2 hq hq2 hpq
      | false =>
        cases herr : (traverse f child (d ++ [name]) ne st).err with
        | true =>
          have hrw : traverseEntries (traverse f) ((name, child) :: rest) d ne st =
              traverse f child (d ++ [name]) ne st := by
            simp [traverseEntries, hdir, hgit, herr]
          rw [hrw] at hq hq2
          exact hkids name child st q q2 (List.mem_cons_self _ _) hq hq2 hpq
        | false =>
          have hcalls : (traverseEntries (traverse f) ((name, child) :: rest) d ne st).calls =
              (traverse f child (d ++ [name]) ne st).calls ++
                (traverseEntries (traverse f) rest d ne
                  (traverse f child (d ++ [name]) ne st).stack).calls := by
            simp [traverseEntries, hdir, hgit, herr]
          rw [hcalls, List.mem_append] at hq hq2
          rcases hq with h1 | h1 <;> rcases hq2 with h2 | h2
          · exact hkids name child st q q2 (List.mem_cons_self _ _) h1 h2 hpq
          · obtain ⟨m, c2, hm2, hpfx2⟩ := entries_calls_pfx f d ne rest _ q2 h2
            have hpfx1 : (d ++ [name]) <+: q2 :=
              (traverse_calls_pfx f child (d ++ [name]) ne st q h1).trans hpq
            exact absurd (List.mem_map_of_mem Prod.fst hm2)
              (head_determined hpfx1 hpfx2 ▸ hname)
          · obtain ⟨m, c2, hm2, hpfx1⟩ := entries_calls_pfx f d ne rest _ q h1
            have hpfx2 : (d ++ [name]) <+: q2 :=
              traverse_calls_pfx f child (d ++ [name]) ne st q2 h2
            have hpfxq2 : (d ++ [m]) <+: q2 := hpfx1.trans hpq
            exact absurd (List.mem_map_of_mem Prod.fst hm2)
              (head_determined hpfx2 hpfxq2 ▸ hname)
          · exact ih _ hndrest hkrest q q2 h1 h2 hpq

theorem traverse_calls_antichain (f : Nat) :
    ∀ (t : FSTree) (d : Path) (e : List Path) (s : List Gitignore) (q q2 : Path),
      wfF f t = true → q ∈ (traverse f t d e s).calls →
      q2 ∈ (traverse f t d e s).calls → q <+: q2 → q = q2 := by
  induction f with
  | zero => intro t d e s q q2 _ hq _ _; simp [traverse, skipResult] at hq
  | succ f ih =>
    intro t d e s q q2 hw hq hq2 hpq
    cases hp : pruneHit d e with
    | true => rw [traverse_pruned f t d e s hp] at hq; simp [skipResult] at hq
    | false =>
      cases hm : t.hasMarker with
      | true => rw [traverse_marker f t d e s hp hm] at hq; simp [skipResult] at hq
      | false =>
        cases hf : flaggedIgnored s d with
        | true =>
          rw [traverse_flagged f t d e s hp hm hf] at hq hq2
          simp at hq hq2
          rw [hq, hq2]
        | false =>
          cases hb : maybe_build_gitignore d t with
          | error u =>
            rw [traverse_builderr f t d e s u hp hm hf hb] at hq
            simp at hq
          | ok og =>
            cases t with
            | file lines =>
              rw [traverse_file f lines d e s og hp hm hf hb] at hq
              simp at hq
            | dir es =>
              rw [traverse_dir f es d e s og hp hm hf hb] at hq hq2
              exact entries_calls_antichain f d (nextExcludePaths d e) es (pushOpt s og)
                (wfF_dir_names hw)
                (fun n c st2 qa qb hmem => ih c (d ++ [n]) (nextExcludePaths d e) st2 qa qb
                  (wfF_dir_child hw hmem))
                q q2 hq hq2 hpq

/-! ### Ancestor matchers stay on the stack throughout a subtree -/

theorem pushOpt_pfx (s : List Gitignore) (og : Option Gitignore) : s <+: pushOpt s og := by
  cases og with
  | none => exact List.prefix_rfl
  | some gi => exact List.prefix_append s [gi]

theorem traverse_invs_stack (f : Nat) :
    ∀ (t : FSTree) (d : Path) (e : List Path) (s : List Gitignore) (iv : Invocation),
      iv ∈ (traverse f t d e s).invs → s <+: iv.stack := by
  induction f with
  | zero =>
    intro t d e s iv hq
    simp [traverse, skipResult] at hq
    subst hq
    exact List.prefix_rfl
  | succ f ih =>
    intro t d e s iv hq
    cases hp : pruneHit d e with
    | true =>
      rw [traverse_pruned f t d e s hp] at hq
      simp [skipResult] at hq
      subst hq
      exact List.prefix_rfl
    | false =>
      cases hm : t.hasMarker with
      | true =>
        rw [traverse_marker f t d e s hp hm] at hq
        simp [skipResult] at hq
        subst hq
        exact List.prefix_rfl
      | false =>
        cases hf : flaggedIgnored s d with
        | true =>
          rw [traverse_flagged f t d e s hp hm hf] at hq
          simp at hq
          subst hq
          exact List.prefix_rfl
        | false =>
          cases hb : maybe_build_gitignore d t with
          | error u =>
            rw [traverse_builderr f t d e s u hp hm hf hb] at hq
            simp at hq
            subst hq
            exact List.prefix_rfl
          | ok og =>
            cases t with
            | file lines =>
              rw [traverse_file f lines d e s og hp hm hf hb] at hq
              simp at hq
              subst hq
              exact List.prefix_rfl
            | dir es =>
              rw [traverse_dir f es d e s og hp hm hf hb] at hq
              simp only [List.mem_cons] at hq
              rcases hq with h | h
              · subst h; exact List.prefix_rfl
              · obtain ⟨n, c, hmem, h1, h2, h3⟩ :=
                  entries_invs_mem (traverse f) d (nextExcludePaths d e)
                    (fun c p s2 => traverse_stack_eq f c p (nextExcludePaths d e) s2) es
                    (pushOpt s og) iv h
                exact (pushOpt_pfx s og).trans
                  (ih c (d ++ [n]) (nextExcludePaths d e) (pushOpt s og) iv h3)

/-! ### A directory not flagged by its stack is never its own callback -/

theorem traverse_self_not_called (f : Nat) (t : FSTree) (d : Path) (e : List Path)
    (s : List Gitignore) (hf : flaggedIgnored s d = false) :
    d ∉ (traverse f t d e s).calls := by
  intro hq
  cases f with
  | zero => simp [traverse, skipResult] at hq
  | succ f =>
    cases hp : pruneHit d e with
    | true => rw [traverse_pruned f t d e s hp] at hq; simp [skipResult] at hq
    | false =>
      cases hm : t.hasMarker with
      | true => rw [traverse_marker f t d e s hp hm] at hq; simp [skipResult] at hq
      | false =>
        cases hb : maybe_build_gitignore d t with
        | error u =>
          rw [traverse_builderr f t d e s u hp hm hf hb] at hq
          simp at hq
        | ok og =>
          cases t with
          | file lines =>
            rw [traverse_file f lines d e s og hp hm hf hb] at hq
            simp at hq
          | dir es =>
            rw [traverse_dir f es d e s og hp hm hf hb] at hq
            obtain ⟨n, c, hmem, h1, h2, h3⟩ :=
              entries_calls_mem (traverse f) d (nextExcludePaths d e)
                (fun c p s2 => traverse_stack_eq f c p (nextExcludePaths d e) s2) es
                (pushOpt s og) d hq
            have hpfx : (d ++ [n]) <+: d :=
              traverse_calls_pfx f c (d ++ [n]) (nextExcludePaths d e) (pushOpt s og) d h3
            have := hpfx.length_le
            simp at this

/-! ### Concrete filesystems used by counterexamples and witnesses -/

/-- Two sibling subtrees `b` (containing `z`) and `c`; used to show the
narrowed exclusion list is shared by all children. -/
def exC2fs : FSTree := .dir [("b", .dir [("z", .dir [])]), ("c", .dir [])]

/-- The subtree at `b` whose ignore file re-includes `foo` while the root's
ignore file ignores `foo/`. -/
def exC6sub : FSTree := .dir [(".gitignore", .file ["!foo"]), ("foo", .dir [])]

/-- Root ignoring `foo/` with a child `b` whose closer file negates it. -/
def exC6fs : FSTree := .dir [(".gitignore", .file ["foo/"]), ("b", exC6sub)]

/-- The matcher the walk builds for `b` in `exC6fs`. -/
def exC6gib : Gitignore :=
  { root := ["b"],
    rules := [{ negated := true, dirOnly := false, anchored := false,
                segs := [[.lit 'f', .lit 'o', .lit 'o']] }] }

/-- A tree where both the whole tree and the subtree `s` are used as roots. -/
def exC7fs : FSTree := .dir [("s", .dir [(".gitignore", .file ["x/"]), ("x", .dir [])])]

/-- One good root next to a root name that does not exist. -/
def exC9fs : FSTree := .dir [("good", .dir [(".gitignore", .file ["x/"]), ("x", .dir [])])]

/-- An ignore-rule file with an invalid glob (`a[`). -/
def exC8fs : FSTree := .dir [(".gitignore", .file ["a["]), ("x", .dir [])]

/-- A matcher rooted at the filesystem root whose single rule is the
directory-only pattern `m/`. -/
def exGiM : Gitignore :=
  { root := [],
    rules := [{ negated := false, dirOnly := true, anchored := false,
                segs := [[.lit 'm']] }] }

/-- A directory that carries a marker file. -/
def exMarked : FSTree := .dir [(".deja-dup-ignore", .file [])]

/-- A small plain tree for witnesses. -/
def exPlain : FSTree := .dir [("k", .dir [])]

/-! ### The claims -/

/-- C1: on every exit of a recursive `traverse` call — normal return, early
return after pruning, marker skip or an ignore report, or error
propagation — exactly the matcher entries pushed by that call are removed
from the tail of the shared matcher stack, so the stack handed back to the
caller equals the stack it held before the call, and a sibling subtree
traversed next starts from the identical stack. -/
theorem claim1_stack_restored (f : Nat) (t : FSTree) (d : Path) (e : List Path)
    (s : List Gitignore) : (traverse f t d e s).stack = s :=
  traverse_stack_eq f t d e s

/-- C2 counterexample: with exclusion list `[b/z]`, the recursive call for
the sibling subtree `c` still receives the list `[b/z]`, whose member is
neither equal to nor a descendant of `c`; the claim that the exclusion list
passed to a subtree contains only descendants-or-equal of that subtree's
root is false at this input. -/
theorem claim2_counterexample :
    (⟨["c"], [["b", "z"]], []⟩ : Invocation) ∈
        (find_directory_to_ignore 6 exC2fs [] [["b", "z"]]).invs ∧
      ¬ ((["c"] : Path) <+: (["b", "z"] : Path)) := by
  constructor
  · decide
  · decide

/-- C2 (amended): every recursive call other than the top one receives an
exclusion list whose members are strict descendants of the directory whose
enumeration spawned the call (the subtree's parent) — not necessarily of the
subtree's own root; the narrowed list is a freshly computed subset of the
caller's list; and an excluded path that is an ancestor-or-equal of the
current directory makes the call return before recursing, so nothing is
passed further down. -/
theorem claim2_amended (f : Nat) (t : FSTree) (d : Path) (e : List Path)
    (s : List Gitignore) (iv : Invocation) (hiv : iv ∈ (traverse f t d e s).invs) :
    ((iv.path = d ∧ iv.excl = e) ∨
      ∀ x ∈ iv.excl, iv.path.dropLast <+: x ∧ x ≠ iv.path.dropLast) ∧
    (∀ d2 e2, ∀ x ∈ nextExcludePaths d2 e2, x ∈ e2) ∧
    (∀ x ∈ e, x <+: d → traverse f t d e s = skipResult d e s) := by
  refine ⟨traverse_invs_excl f t d e s iv hiv,
    fun d2 e2 x hx => nextExcludePaths_sub d2 e2 x hx, ?_⟩
  intro x hx hpfx
  cases f with
  | zero => rfl
  | succ f => exact traverse_pruned f t d e s ((pruneHit_iff d e).mpr ⟨x, hx, hpfx⟩)

/-- C2 amended, witness at the input of the counterexample. -/
theorem claim2_amended_witness :
    (((⟨["c"], [["b", "z"]], []⟩ : Invocation).path = ([] : Path) ∧
        (⟨["c"], [["b", "z"]], []⟩ : Invocation).excl = [["b", "z"]]) ∨
      ∀ x ∈ (⟨["c"], [["b", "z"]], []⟩ : Invocation).excl,
        (⟨["c"], [["b", "z"]], []⟩ : Invocation).path.dropLast <+: x ∧
          x ≠ (⟨["c"], [["b", "z"]], []⟩ : Invocation).path.dropLast) ∧
    (∀ d2 e2, ∀ x ∈ nextExcludePaths d2 e2, x ∈ e2) ∧
    (∀ x ∈ [(["b", "z"] : Path)], x <+: ([] : Path) →
      traverse 6 exC2fs [] [["b", "z"]] [] = skipResult [] [["b", "z"]] []) :=
  claim2_amended 6 exC2fs [] [["b", "z"]] [] ⟨["c"], [["b", "z"]], []⟩ (by decide)

/-- C4: a directory that is neither pruned nor marker-skipped but is flagged
by some matcher on the stack is reported and the call returns immediately:
the callback fires exactly for it, its own ignore-rule file is never read or
built, no descendant is visited (no further recursive call happens) and the
stack is left untouched. -/
theorem claim4_ignored_reported_no_descent (f : Nat) (t : FSTree) (d : Path)
    (e : List Path) (s : List Gitignore) (hp : pruneHit d e = false)
    (hm : t.hasMarker = false) (hf : flaggedIgnored s d = true) :
    traverse (f + 1) t d e s =
      { calls := [d], stack := s, err := false, invs := [⟨d, e, s⟩], builds := [] } :=
  traverse_flagged f t d e s hp hm hf

/-- C4 witness: the directory `m` is flagged by the root matcher `m/`. -/
theorem claim4_witness :
    traverse 4 exPlain ["m"] [] [exGiM] =
      { calls := [["m"]], stack := [exGiM], err := false,
        invs := [⟨["m"], [], [exGiM]⟩], builds := [] } :=
  claim4_ignored_reported_no_descent 3 exPlain ["m"] [] [exGiM]
    (by decide) (by decide) (by decide)

/-- C5: a directory equal to or inside any path of the exclusion list is
pruned silently and totally: the call produces no callback at all, makes no
further recursive call (nothing beneath it is enumerated), never builds its
ignore rules, and this holds regardless of markers or matchers. -/
theorem claim5_excluded_pruned_totally (f : Nat) (t : FSTree) (d : Path)
    (e : List Path) (s : List Gitignore) (hp : ∃ x ∈ e, x <+: d) :
    traverse f t d e s =
      { calls := [], stack := s, err := false, invs := [⟨d, e, s⟩], builds := [] } := by
  cases f with
  | zero => rfl
  | succ f => exact traverse_pruned f t d e s ((pruneHit_iff d e).mpr hp)

/-- C5 witness: `b/z` is excluded and pruned even though a matcher flags it
and it carries a marker. -/
theorem claim5_witness :
    traverse 4 exMarked ["b", "z"] [["b"]] [exGiM] =
      { calls := [], stack := [exGiM], err := false,
        invs := [⟨["b", "z"], [["b"]], [exGiM]⟩], builds := [] } :=
  claim5_excluded_pruned_totally 4 exMarked ["b", "z"] [["b"]] [exGiM] (by decide)

/-- C8: when a directory is reached (not pruned, no marker, not flagged) and
its ignore-rule file exists but cannot be built into a matcher, the call for
that subtree fails with a propagated error instead of silently continuing:
no callback fires, no child is visited, and the error flag is set. -/
theorem claim8_build_failure_propagates (f : Nat) (t : FSTree) (d : Path)
    (e : List Path) (s : List Gitignore) (u : Unit) (hp : pruneHit d e = false)
    (hm : t.hasMarker = false) (hf : flaggedIgnored s d = false)
    (hb : maybe_build_gitignore d t = .error u) :
    traverse (f + 1) t d e s =
      { calls := [], stack := s, err := true, invs := [⟨d, e, s⟩], builds := [d] } :=
  traverse_builderr f t d e s u hp hm hf hb

/-- C8 witness: the file containing the invalid glob `a[` fails the build
and the call errors out. -/
theorem claim8_witness :
    traverse 4 exC8fs [] [] [] =
      { calls := [], stack := [], err := true, invs := [⟨[], [], []⟩], builds := [[]] } :=
  claim8_build_failure_propagates 3 exC8fs [] [] [] ()
    (by decide) (by decide) (by decide) rfl

/-- C9 counterexample: with roots `[missing, good]`, the unresolvable first
root aborts the whole loop — the sibling root `good` is never traversed (no
callback at all), although traversing `good` alone reports `good/x`; so root
traversals are not independent. -/
theorem claim9_counterexample :
    runRoots 6 exC9fs [["missing"], ["good"]] [] = { calls := [], err := true } ∧
      runRoots 6 exC9fs [["good"]] [] = { calls := [["good", "x"]], err := false } := by
  constructor
  · decide
  · decide

/-- C9 (amended): a root that cannot be resolved is a fatal error for the
whole invocation: the loop reports the failure and the remaining sibling
roots are not traversed (the `?` operator propagates the error out of the
loop, so root traversals are sequential, not independent). -/
theorem claim9_amended (f : Nat) (fs : FSTree) (r : Path) (rest : List Path)
    (e : List Path) (h : resolvePath fs r = none) :
    runRoots f fs (r :: rest) e = { calls := [], err := true } := by
  simp [runRoots, h]

/-- C9 amended, witness at the counterexample's input. -/
theorem claim9_amended_witness :
    runRoots 6 exC9fs [["missing"], ["good"]] [] = { calls := [], err := true } :=
  claim9_amended 6 exC9fs ["missing"] [["good"]] [] rfl

/-- C10: the root directory itself is never passed to the callback: the walk
starts with an empty matcher stack, so the root cannot be classified as
ignored — it is only ever pruned, marker-skipped, or descended into. -/
theorem claim10_root_never_reported (f : Nat) (t : FSTree) (root : Path)
    (e : List Path) : root ∉ (find_directory_to_ignore f t root e).calls :=
  traverse_self_not_called f t root e [] rfl

/-- C10 witness at a concrete tree. -/
theorem claim10_witness : (["r"] : Path) ∉ (find_directory_to_ignore 3 exPlain ["r"] []).calls :=
  claim10_root_never_reported 3 exPlain ["r"] []

/-- C3: the marker check precedes the ignore check, so a directory that
directly contains a marker file is never reported and never descended into.
First conjunct: within a well-formed tree, every reported directory resolves
to a node without a marker — the callback is never invoked on a
marker-carrying directory, whatever the matcher stack says.  Second
conjunct: the call on a marker-carrying, non-pruned directory returns
before the ignore check, with no callback, no matcher build and no further
recursive call. -/
theorem claim3_marker_short_circuit (f : Nat) (t : FSTree) (d : Path) (e : List Path)
    (s : List Gitignore) (hw : wfF f t = true) :
    (∀ q ∈ (traverse f t d e s).calls,
      ∃ sub, resolvePath t (q.drop d.length) = some sub ∧ sub.hasMarker = false) ∧
    (t.hasMarker = true → pruneHit d e = false →
      traverse (f + 1) t d e s = skipResult d e s) :=
  ⟨fun q hq => traverse_calls_resolve f t d e s q hw hq,
    fun hm hp => traverse_marker f t d e s hp hm⟩

/-- C3 witness: a marked directory that the matcher on the stack would flag
is skipped anyway. -/
theorem claim3_witness :
    (∀ q ∈ (traverse 3 exMarked ["m"] [] [exGiM]).calls,
      ∃ sub, resolvePath exMarked (q.drop 1) = some sub ∧ sub.hasMarker = false) ∧
    (exMarked.hasMarker = true → pruneHit ["m"] [] = false →
      traverse 4 exMarked ["m"] [] [exGiM] = skipResult ["m"] [] [exGiM]) :=
  claim3_marker_short_circuit 3 exMarked ["m"] [] [exGiM] (by decide)

/-- C6 counterexample: the root's ignore file contains `foo/` and the closer
file `b/.gitignore` contains the negation `!foo`, which the built matcher for
`b` answers with a whitelist match for `b/foo`; yet the walk still reports
`b/foo`, because the first ignore answer — scanned from the outermost matcher
— wins and whitelist answers of other files are never consulted.  The claim
that a closer file's negation overrides a more distant ancestor's ignoring
rule is false at this input. -/
theorem claim6_counterexample :
    maybe_build_gitignore ["b"] exC6sub = .ok (some exC6gib) ∧
    exC6gib.matched ["b", "foo"] true = GiMatch.whitelist ∧
    (find_directory_to_ignore 6 exC6fs [] []).calls = [["b", "foo"]] := by
  refine ⟨rfl, by decide, by decide⟩

/-- C6 (amended): a rule defined in an ancestor directory's ignore-rule file
applies to matching directories in all descendant directories, recursively:
the ancestor's matcher stays on the stack for every call of the subtree
(first conjunct), and any directory that some matcher on the stack flags as
ignored is reported (second conjunct) — so a closer file's negation does
not override a more distant ancestor's ignoring rule; negations take effect
only against rules of the same ignore-rule file. -/
theorem claim6_amended (f : Nat) (t : FSTree) (d : Path) (e : List Path)
    (s : List Gitignore) :
    (∀ iv ∈ (traverse f t d e s).invs, s <+: iv.stack) ∧
    (pruneHit d e = false → t.hasMarker = false → flaggedIgnored s d = true →
      (traverse (f + 1) t d e s).calls = [d]) := by
  refine ⟨fun iv hiv => traverse_invs_stack f t d e s iv hiv, fun hp hm hf => ?_⟩
  rw [traverse_flagged f t d e s hp hm hf]

/-- C6 amended, witness at a concrete flagged directory. -/
theorem claim6_amended_witness :
    (∀ iv ∈ (traverse 3 exPlain ["m"] [] [exGiM]).invs, [exGiM] <+: iv.stack) ∧
    (traverse 3 exPlain ["m"] [] [exGiM]).calls = [["m"]] :=
  ⟨(claim6_amended 3 exPlain ["m"] [] [exGiM]).1,
    (claim6_amended 2 exPlain ["m"] [] [exGiM]).2 (by decide) (by decide) (by decide)⟩

/-- C7 counterexample: when the supplied roots overlap (the whole tree and
its subdirectory `s`), the physical directory `s/x` is reported once per
root — twice in the whole call — so the callback is not invoked at most once
per physical directory across the whole call. -/
theorem claim7_counterexample :
    (runRoots 6 exC7fs [[], ["s"]] []).calls = [["s", "x"], ["s", "x"]] ∧
      ¬ ((runRoots 6 exC7fs [[], ["s"]] []).calls).Nodup := by
  constructor
  · decide
  · decide

/-- C7 (amended): within the traversal of a single root over a well-formed
tree the callback fires at most once per physical directory, and no two
reported directories are in ancestor–descendant relation, so the
parent-before-children requirement on the invocation order holds (vacuously)
and sibling order is the enumeration order; across the whole call,
overlapping roots may repeat a directory once per root. -/
theorem claim7_amended (f : Nat) (t : FSTree) (root : Path) (e : List Path)
    (hw : wfF f t = true) :
    ((find_directory_to_ignore f t root e).calls).Nodup ∧
    (∀ q ∈ (find_directory_to_ignore f t root e).calls,
      ∀ q2 ∈ (find_directory_to_ignore f t root e).calls, q <+: q2 → q = q2) :=
  ⟨traverse_calls_nodup f t root e [] hw,
    fun q hq q2 hq2 hpq => traverse_calls_antichain f t root e [] q q2 hw hq hq2 hpq⟩

/-- C7 amended, witness on a concrete tree. -/
theorem claim7_amended_witness :
    ((find_directory_to_ignore 5 exC7fs [] []).calls).Nodup ∧
    (∀ q ∈ (find_directory_to_ignore 5 exC7fs [] []).calls,
      ∀ q2 ∈ (find_directory_to_ignore 5 exC7fs [] []).calls, q <+: q2 → q = q2) :=
  claim7_amended 5 exC7fs [] [] (by decide)

end DD
